import Mathlib

/-!
Shallow embedding of the `app-context-core` crate: a runtime object
registry with capability-compatible lookup, a lazily populated lookup
cache, and two reference handles (eager weak-backed and lazy memoized).

Rust `&'static str` is modelled as `String`; `Arc<dyn AbstractAppObject>`
as a plain `AppObject` value (pointer identity is carried by `objId` and
by structural equality of the stored value); `Weak<T>` as a `WeakRef`
carrying the strong count observed at dereference time; the two nested
`HashMap`s of the cache as association lists with insert-if-absent
semantics; `Box<dyn Any>` as an `AnyBox` tagging the erased value with
the type name of its content, so that `downcast::<&T>` succeeds exactly
when the tag matches the requested type.  Lock acquisition is modelled
as always succeeding (the Rust code panics on poisoning, which has no
counterpart in a sequential embedding).
-/

namespace AppCtx

/-- Mirrors `BaseInfo` in lib.rs: a (declared name, type tag) pair used
both as registration metadata and as the lookup key. -/
structure BaseInfo where
  name : String
  type_name : String
deriving DecidableEq, Repr

/-- Mirrors `ObjectMeta` in lib.rs. -/
structure ObjectMeta where
  type_info : BaseInfo
  deps : List BaseInfo
  can_cast_to : List BaseInfo
deriving DecidableEq, Repr

/-- Mirrors `ObjectMeta::compat_with`: true when the requested identity
equals the object's own identity or occurs in its capability list. -/
def ObjectMeta.compat_with (m : ObjectMeta) (expected : BaseInfo) : Bool :=
  if m.type_info == expected then
    true
  else if m.can_cast_to.contains expected then
    true
  else
    false

/-- Mirrors `ObjectMeta::depends_on`. -/
def ObjectMeta.depends_on (m : ObjectMeta) (expected : BaseInfo) : Bool :=
  m.deps.contains expected

/-- Mirrors `AppContextError` in error.rs. -/
inductive AppContextError where
  | UnsupportedCast (obj_name obj_type expected_type : String)
  | AppContextDropped
  | ObjectNotFound (obj_name obj_type : String)
  | UnexpectedError (msg : String)
deriving DecidableEq, Repr

/-- Models `Box<dyn Any>`: an erased value tagged with the type name of
its content; `downcast::<&T>` succeeds exactly when `ty` is the name of
`T`. The payload is abstracted to a `Nat`. -/
structure AnyBox where
  ty : String
  val : Nat
deriving DecidableEq, Repr

/-- Models one `Arc<dyn AbstractAppObject>`: its metadata together with
the derive-generated `try_cast_to` dispatch (a function from a requested
type name to an erased reference or an error), plus an allocation
identity `objId` standing in for the `Arc` pointer. -/
structure AppObject where
  objId : Nat
  meta : ObjectMeta
  try_cast_to : String → Except AppContextError AnyBox

/-- Models `std::sync::Weak<α>`: the target plus the strong count
observed when the weak reference is dereferenced. -/
structure WeakRef (α : Type) where
  strong_count : Nat
  target : α

/-- Mirrors `util::weak_to_ref`: `None` when the strong count is zero,
otherwise a reference to the target. -/
def weak_to_ref {α : Type} (w : WeakRef α) : Option α :=
  if w.strong_count = 0 then none else some w.target

/-- Inner map of the cache, `HashMap<&'static str, Weak<dyn ...>>`,
keyed by requested name. -/
abbrev NameMap := List (String × AppObject)

/-- Outer map of the cache, keyed by requested type name. -/
abbrev ObjectCache := List (String × NameMap)

/-- Models `HashMap::get` on an association list. -/
def hmFind {β : Type} : List (String × β) → String → Option β
  | [], _ => none
  | (k, v) :: rest, key => if k = key then some v else hmFind rest key

/-- Models `map.entry(key).or_insert(v)` on the inner map: keeps the
existing entry when present, inserts otherwise. -/
def nmOrInsert (m : NameMap) (key : String) (v : AppObject) : NameMap :=
  match hmFind m key with
  | some _ => m
  | none => (key, v) :: m

/-- Models lines 159-163 of lib.rs:
`w.entry(ty).or_insert(HashMap::new()).entry(nm).or_insert(weak)`. -/
def cacheInsert : ObjectCache → String → String → AppObject → ObjectCache
  | [], ty, nm, v => [(ty, nmOrInsert [] nm v)]
  | (k, m) :: rest, ty, nm, v =>
    if k = ty then (k, nmOrInsert m nm v) :: rest
    else (k, m) :: cacheInsert rest ty nm v

/-- Models the cache-read path of `get_and_cache_inner` (lines 140-144):
outer lookup by type name, then inner lookup by name. -/
def cacheFind (c : ObjectCache) (ty nm : String) : Option AppObject :=
  (hmFind c ty).bind (fun m => hmFind m nm)

/-- Mirrors `AppContextInner`: the registration-ordered object list and
the lookup cache. -/
structure AppContextInner where
  objects : List AppObject
  object_cache : ObjectCache

/-- Mirrors `AppContextInner::register_dyn`: `Vec::push` appends at the
end, so registration order is insertion order. -/
def AppContextInner.register_dyn (st : AppContextInner) (obj : AppObject) : AppContextInner :=
  { st with objects := st.objects ++ [obj] }

/-- Mirrors `AppContextInner::get_and_cache_inner`: return the cached
entry on a hit; on a miss scan `objects` in order for the first
compatible object, and cache it (insert-if-absent) when found.  The
returned state is the registry after the call (its cache may have one
new entry). -/
def AppContextInner.get_and_cache_inner (st : AppContextInner) (expected : BaseInfo) :
    Option AppObject × AppContextInner :=
  match cacheFind st.object_cache expected.type_name expected.name with
  | some cached_obj => (some cached_obj, st)
  | none =>
    match st.objects.find? (fun s => s.meta.compat_with expected) with
    | some obj =>
      (some obj,
       { st with object_cache := cacheInsert st.object_cache expected.type_name expected.name obj })
    | none => (none, st)

/-- Mirrors the free function `cast_ref` in lib.rs: dereference the weak
pointer (failing with `AppContextDropped` when the strong count is
zero), run the object's `try_cast_to` at the requested type name `tyT`
(modelling `type_name::<T>()`), then downcast the erased box, failing
with `UnsupportedCast` built from `base_info` and `tyT`. -/
def cast_ref (weak_ptr : WeakRef AppObject) (base_info : BaseInfo) (tyT : String) :
    Except AppContextError Nat :=
  match weak_to_ref weak_ptr with
  | none => .error .AppContextDropped
  | some r_ref =>
    match r_ref.try_cast_to tyT with
    | .error e => .error e
    | .ok cast_any =>
      if cast_any.ty = tyT then .ok cast_any.val
      else
        .error (.UnsupportedCast base_info.name base_info.type_name tyT)

/-- Mirrors `AppObjectRef<T>`: a weak reference to the resolved object
plus the `BaseInfo` the handle was resolved against (the requested
identity, see `AppContext::get_obj`). -/
structure AppObjectRef where
  inner : WeakRef AppObject
  base_info : BaseInfo

/-- Mirrors `AppObjectRef::new`. -/
def AppObjectRef.new (w : WeakRef AppObject) (bi : BaseInfo) : AppObjectRef :=
  ⟨w, bi⟩

/-- Mirrors `AppObjectRef::try_downcast`. -/
def AppObjectRef.try_downcast (r : AppObjectRef) (tyT : String) :
    Except AppContextError Nat :=
  cast_ref r.inner r.base_info tyT

/-- Mirrors `LazyAppObjectRef<T>`. The Rust struct holds a `LazyLock`
whose closure captures a `Weak<AppContextInner>`; here the `LazyLock`
state is explicit: `memo = none` means not yet forced, `memo = some r`
means the init closure already ran and produced `r`.  The captured weak
registry reference is externalized: it is supplied to `force` as the
registry's state at force time (`none` when the registry was dropped). -/
structure LazyAppObjectRef where
  memo : Option (Option AppObject)
  base_info : BaseInfo

/-- Mirrors `LazyAppObjectRef::lazy_new`: builds the init closure and
returns `Ok`; no resolution happens here. -/
def LazyAppObjectRef.lazy_new (bi : BaseInfo) : Except AppContextError LazyAppObjectRef :=
  .ok { memo := none, base_info := bi }

/-- Models forcing the `LazyLock` (`self.inner.as_ref()`): if already
initialized return the memo; otherwise run the init closure, which
dereferences the captured weak registry reference (`ctx_now`, `none`
when dropped) and on success performs `get_and_cache_inner`, memoizing
the outcome.  Returns (value, updated handle, updated registry). -/
def LazyAppObjectRef.force (l : LazyAppObjectRef) (ctx_now : Option AppContextInner) :
    Option AppObject × LazyAppObjectRef × Option AppContextInner :=
  match l.memo with
  | some v => (v, l, ctx_now)
  | none =>
    match ctx_now with
    | none => (none, { l with memo := some none }, none)
    | some st =>
      let res := st.get_and_cache_inner l.base_info
      (res.1, { l with memo := some res.1 }, some res.2)

/-- Mirrors `LazyAppObjectRef::try_downcast`: force the lazy cell, map
an empty outcome to `ObjectNotFound` over the requested identity, and
otherwise `cast_ref` the memoized weak object pointer.  `obj_strong` is
the object's strong count at downcast time. -/
def LazyAppObjectRef.try_downcast (l : LazyAppObjectRef) (ctx_now : Option AppContextInner)
    (obj_strong : Nat) (tyT : String) :
    Except AppContextError Nat × LazyAppObjectRef × Option AppContextInner :=
  match l.force ctx_now with
  | (none, l2, ctx2) =>
    (.error (.ObjectNotFound l.base_info.name l.base_info.type_name), l2, ctx2)
  | (some obj, l2, ctx2) => (cast_ref ⟨obj_strong, obj⟩ l.base_info tyT, l2, ctx2)

/-- Mirrors `AppContext::get_lazy_obj`, whose body is
`LazyAppObjectRef::lazy_new(inner, expected).unwrap()`.  The `unwrap` is
modelled by `Option`: `none` stands for a panic. -/
def get_lazy_obj (bi : BaseInfo) : Option LazyAppObjectRef :=
  match LazyAppObjectRef.lazy_new bi with
  | .ok l => some l
  | .error _ => none

/-- Registry states reachable from the empty registry by registrations
and resolutions (the only operations that touch `objects` or the
cache). -/
inductive Reachable : AppContextInner → Prop where
  | init : Reachable ⟨[], []⟩
  | reg (st : AppContextInner) (obj : AppObject) :
      Reachable st → Reachable (st.register_dyn obj)
  | resolve (st : AppContextInner) (e : BaseInfo) :
      Reachable st → Reachable (st.get_and_cache_inner e).2

/-- Coherency predicate: every cache entry under key (ty, nm) is exactly
what a fresh linear scan over `objects` with the requested identity
{name := nm, type_name := ty} would find first. -/
def cacheCoherent (st : AppContextInner) : Prop :=
  ∀ ty nm o, cacheFind st.object_cache ty nm = some o →
    st.objects.find? (fun s => s.meta.compat_with ⟨nm, ty⟩) = some o

/-- Concrete sample object whose own identity is ("a", "T") and whose
capability list is empty. -/
def objA : AppObject :=
  { objId := 1
    meta := { type_info := ⟨"a", "T"⟩, deps := [], can_cast_to := [] }
    try_cast_to := fun _ => .error (.UnexpectedError "no cast table") }

/-- Concrete sample object with own identity ("b", "U") that declares
the capability ("a", "T"). -/
def objB : AppObject :=
  { objId := 2
    meta := { type_info := ⟨"b", "U"⟩, deps := [], can_cast_to := [⟨"a", "T"⟩] }
    try_cast_to := fun _ => .error (.UnexpectedError "no cast table") }

/-- Concrete sample object with own identity ("obj", "ObjType") and
declared capability ("cap", "CapType") whose generated cast table is
inconsistent: casting to "CapType" yields an erased box holding a value
of a different type, so the `downcast::<&T>` step of `cast_ref` fails. -/
def objMismatch : AppObject :=
  { objId := 3
    meta := { type_info := ⟨"obj", "ObjType"⟩, deps := [],
              can_cast_to := [⟨"cap", "CapType"⟩] }
    try_cast_to := fun t =>
      if t = "CapType" then .ok ⟨"SomethingElse", 0⟩
      else .error (.UnexpectedError "unknown cast target") }

/-! Helper lemmas about the association-list model of the two nested
`HashMap`s and about `List.find?`. -/

/-- Inserting under a fresh name and looking that name up yields the
inserted value. -/
theorem hmFind_nmOrInsert_self {m : NameMap} {nm : String} {v : AppObject}
    (h : hmFind m nm = none) : hmFind (nmOrInsert m nm v) nm = some v := by
  unfold nmOrInsert
  rw [h]
  simp [hmFind]

/-- Insert-if-absent never disturbs lookups under a different name. -/
theorem hmFind_nmOrInsert_other {m : NameMap} {nm nm' : String} {v : AppObject}
    (h : nm' ≠ nm) : hmFind (nmOrInsert m nm v) nm' = hmFind m nm' := by
  unfold nmOrInsert
  cases hfind : hmFind m nm with
  | some w => rfl
  | none => simp [hmFind, Ne.symm h]

/-- A cache insert at a key that was absent makes that key map to the
inserted object. -/
theorem cacheFind_cacheInsert_self {c : ObjectCache} {ty nm : String} {v : AppObject}
    (h : cacheFind c ty nm = none) :
    cacheFind (cacheInsert c ty nm v) ty nm = some v := by
  induction c with
  | nil => simp [cacheInsert, cacheFind, hmFind, nmOrInsert]
  | cons head rest ih =>
    obtain ⟨k, m⟩ := head
    by_cases hk : k = ty
    · subst hk
      have hm : hmFind m nm = none := by
        simpa [cacheFind, hmFind] using h
      simp [cacheInsert, cacheFind, hmFind, hmFind_nmOrInsert_self hm]
    · have h2 : cacheFind rest ty nm = none := by
        simpa [cacheFind, hmFind, hk] using h
      have hstep : cacheFind (cacheInsert ((k, m) :: rest) ty nm v) ty nm
          = cacheFind (cacheInsert rest ty nm v) ty nm := by
        simp [cacheInsert, cacheFind, hmFind, hk]
      rw [hstep]
      exact ih h2

/-- A cache insert never disturbs lookups under any other (type, name)
key. -/
theorem cacheFind_cacheInsert_other {c : ObjectCache} {ity inm ty nm : String}
    {v : AppObject} (h : ¬(ty = ity ∧ nm = inm)) :
    cacheFind (cacheInsert c ity inm v) ty nm = cacheFind c ty nm := by
  induction c with
  | nil =>
    by_cases hty : ty = ity
    · subst hty
      have hnm : nm ≠ inm := fun he => h ⟨rfl, he⟩
      simp [cacheInsert, cacheFind, hmFind, nmOrInsert, Ne.symm hnm]
    · simp [cacheInsert, cacheFind, hmFind, Ne.symm hty]
  | cons head rest ih =>
    obtain ⟨k, m⟩ := head
    by_cases hk : k = ity
    · subst hk
      by_cases hty : k = ty
      · subst hty
        have hnm : nm ≠ inm := fun he => h ⟨rfl, he⟩
        simp [cacheInsert, cacheFind, hmFind, hmFind_nmOrInsert_other hnm]
      · simp [cacheInsert, cacheFind, hmFind, hty]
    · by_cases hty : k = ty
      · subst hty
        simp [cacheInsert, cacheFind, hmFind, hk]
      · have hstep : cacheFind (cacheInsert ((k, m) :: rest) ity inm v) ty nm
            = cacheFind (cacheInsert rest ity inm v) ty nm := by
          simp [cacheInsert, cacheFind, hmFind, hk, hty]
        have hstep2 : cacheFind ((k, m) :: rest) ty nm = cacheFind rest ty nm := by
          simp [cacheFind, hmFind, hty]
        rw [hstep, hstep2]
        exact ih

/-- Unfolding lemma for `get_and_cache_inner` on a cache hit. -/
theorem get_and_cache_hit {st : AppContextInner} {e : BaseInfo} {o : AppObject}
    (h : cacheFind st.object_cache e.type_name e.name = some o) :
    st.get_and_cache_inner e = (some o, st) := by
  unfold AppContextInner.get_and_cache_inner
  rw [h]

/-- Unfolding lemma for `get_and_cache_inner` on a miss with a
successful scan. -/
theorem get_and_cache_miss_found {st : AppContextInner} {e : BaseInfo} {obj : AppObject}
    (h1 : cacheFind st.object_cache e.type_name e.name = none)
    (h2 : st.objects.find? (fun s => s.meta.compat_with e) = some obj) :
    st.get_and_cache_inner e =
      (some obj,
       { st with object_cache := cacheInsert st.object_cache e.type_name e.name obj }) := by
  unfold AppContextInner.get_and_cache_inner
  rw [h1, h2]

/-- Unfolding lemma for `get_and_cache_inner` on a miss with an empty
scan. -/
theorem get_and_cache_miss_none {st : AppContextInner} {e : BaseInfo}
    (h1 : cacheFind st.object_cache e.type_name e.name = none)
    (h2 : st.objects.find? (fun s => s.meta.compat_with e) = none) :
    st.get_and_cache_inner e = (none, st) := by
  unfold AppContextInner.get_and_cache_inner
  rw [h1, h2]

/-- First-match decomposition for `List.find?`: a successful find splits
the list around the hit, with every earlier element failing the
predicate. -/
theorem find?_first_match {α : Type} {p : α → Bool} :
    ∀ {l : List α} {a : α}, l.find? p = some a →
      ∃ l1 l2, l = l1 ++ a :: l2 ∧ p a = true ∧ ∀ x ∈ l1, p x = false := by
  intro l
  induction l with
  | nil => intro a h; simp at h
  | cons x xs ih =>
    intro a h
    by_cases hx : p x = true
    · rw [List.find?_cons_of_pos _ hx] at h
      obtain rfl : x = a := by injection h
      exact ⟨[], xs, by simp, hx, by simp⟩
    · rw [List.find?_cons_of_neg _ hx] at h
      obtain ⟨l1, l2, rfl, hpa, hl1⟩ := ih h
      refine ⟨x :: l1, l2, by simp, hpa, ?_⟩
      intro y hy
      rcases List.mem_cons.mp hy with rfl | hy2
      · exact Bool.not_eq_true _ ▸ (by simpa using hx)
      · exact hl1 y hy2

/-- Registration never removes or changes existing cache entries, and a
resolution only ever adds the entry it just computed (insert-if-absent),
so any existing entry survives one step. -/
theorem cache_entry_preserved_resolve {st : AppContextInner} {ty nm : String}
    {o : AppObject} (h : cacheFind st.object_cache ty nm = some o) (e : BaseInfo) :
    cacheFind ((st.get_and_cache_inner e).2).object_cache ty nm = some o := by
  cases hc : cacheFind st.object_cache e.type_name e.name with
  | some o0 => rw [get_and_cache_hit hc]; exact h
  | none =>
    cases hf : st.objects.find? (fun s => s.meta.compat_with e) with
    | none => rw [get_and_cache_miss_none hc hf]; exact h
    | some obj =>
      rw [get_and_cache_miss_found hc hf]
      have hkey : ¬(ty = e.type_name ∧ nm = e.name) := by
        rintro ⟨rfl, rfl⟩
        rw [h] at hc
        exact Option.noConfusion hc
      show cacheFind (cacheInsert st.object_cache e.type_name e.name obj) ty nm = some o
      rw [cacheFind_cacheInsert_other hkey]
      exact h

/-- Every reachable registry state is cache-coherent. -/
theorem reachable_cacheCoherent {st : AppContextInner} (h : Reachable st) :
    cacheCoherent st := by
  induction h with
  | init => intro ty nm o hfind; simp [cacheFind, hmFind] at hfind
  | reg st obj _ ih =>
    intro ty nm o hfind
    have hold : st.objects.find? (fun s => s.meta.compat_with ⟨nm, ty⟩) = some o :=
      ih ty nm o hfind
    show ((st.register_dyn obj).objects).find? _ = some o
    simp [AppContextInner.register_dyn, List.find?_append, hold]
  | resolve st e _ ih =>
    intro ty nm o hfind
    cases hc : cacheFind st.object_cache e.type_name e.name with
    | some o0 =>
      rw [get_and_cache_hit hc] at hfind ⊢
      exact ih ty nm o hfind
    | none =>
      cases hf : st.objects.find? (fun s => s.meta.compat_with e) with
      | none =>
        rw [get_and_cache_miss_none hc hf] at hfind ⊢
        exact ih ty nm o hfind
      | some obj =>
        rw [get_and_cache_miss_found hc hf] at hfind ⊢
        by_cases hkey : ty = e.type_name ∧ nm = e.name
        · obtain ⟨rfl, rfl⟩ := hkey
          have hself : cacheFind
              (cacheInsert st.object_cache e.type_name e.name obj) e.type_name e.name
              = some obj := cacheFind_cacheInsert_self hc
          have : some obj = some o := by
            rw [← hself]
            exact hfind
          obtain rfl : obj = o := by injection this
          exact hf
        · have hother : cacheFind
              (cacheInsert st.object_cache e.type_name e.name obj) ty nm
              = cacheFind st.object_cache ty nm := cacheFind_cacheInsert_other hkey
          rw [hother] at hfind
          exact ih ty nm o hfind

/-- Unfolding of `compat_with` into a boolean disjunction. -/
theorem compat_with_eq (m : ObjectMeta) (R : BaseInfo) :
    m.compat_with R = (m.type_info == R || m.can_cast_to.contains R) := by
  unfold ObjectMeta.compat_with
  by_cases h1 : m.type_info == R <;> by_cases h2 : m.can_cast_to.contains R <;>
    simp [h1, h2]

/-- C6: for every metadata M and requested identity R,
`compat_with M R` is true iff R equals M's own identity or R belongs to
M's declared capability list (no transitive or inherited closure), and
two identities are equal iff both the name and the type tag match. -/
theorem C6_compat_with_spec (m : ObjectMeta) (R : BaseInfo) (a b : BaseInfo) :
    (m.compat_with R = true ↔ (R = m.type_info ∨ R ∈ m.can_cast_to)) ∧
    (a = b ↔ (a.name = b.name ∧ a.type_name = b.type_name)) := by
  constructor
  · rw [compat_with_eq]
    simp only [Bool.or_eq_true, beq_iff_eq]
    constructor
    · rintro (h | h)
      · exact Or.inl h.symm
      · exact Or.inr (by simpa using h)
    · rintro (h | h)
      · exact Or.inl h.symm
      · exact Or.inr (by simpa using h)
  · constructor
    · intro h
      rw [h]
      exact ⟨rfl, rfl⟩
    · intro ⟨h1, h2⟩
      cases a
      cases b
      simp_all

/-- C1: on a cache miss, resolution returns nothing iff no registered
object is compatible with the requested identity; a returned object is
compatible and is the first such object in registration order (every
earlier registered object is incompatible); and in a registry holding
exactly two compatible objects, the first registered one is returned. -/
theorem C1_resolution_first_compatible (st : AppContextInner) (R : BaseInfo)
    (hmiss : cacheFind st.object_cache R.type_name R.name = none) :
    ((st.get_and_cache_inner R).1 = none ↔
      ∀ o ∈ st.objects, o.meta.compat_with R = false) ∧
    (∀ A, (st.get_and_cache_inner R).1 = some A →
      A.meta.compat_with R = true ∧
      ∃ l1 l2, st.objects = l1 ++ A :: l2 ∧
        ∀ o ∈ l1, o.meta.compat_with R = false) ∧
    (∀ A B, A.meta.compat_with R = true → B.meta.compat_with R = true →
      ((AppContextInner.mk [A, B] st.object_cache).get_and_cache_inner R).1 = some A) := by
  have hAB : ∀ A B : AppObject, A.meta.compat_with R = true → B.meta.compat_with R = true →
      ((AppContextInner.mk [A, B] st.object_cache).get_and_cache_inner R).1 = some A := by
    intro A B hA hB
    have hfind : ([A, B]).find? (fun s => s.meta.compat_with R) = some A :=
      List.find?_cons_of_pos _ hA
    have hmiss2 : cacheFind (AppContextInner.mk [A, B] st.object_cache).object_cache
        R.type_name R.name = none := hmiss
    rw [get_and_cache_miss_found hmiss2 hfind]
  cases hf : st.objects.find? (fun s => s.meta.compat_with R) with
  | none =>
    rw [get_and_cache_miss_none hmiss hf]
    refine ⟨?_, ?_, hAB⟩
    · have := List.find?_eq_none.mp hf
      simp only [Bool.not_eq_true] at this
      simpa using fun o ho => this o ho
    · intro A hA
      exact absurd hA (by simp)
  | some obj =>
    rw [get_and_cache_miss_found hmiss hf]
    refine ⟨?_, ?_, hAB⟩
    · constructor
      · intro h
        exact absurd h (by simp)
      · intro hall
        have hp := List.find?_some hf
        simp only [] at hp
        have hmem : obj ∈ st.objects := List.mem_of_find?_eq_some hf
        rw [hall obj hmem] at hp
        exact absurd hp (by simp)
    · intro A hA
      have : obj = A := by simpa using hA
      subst this
      have hp := List.find?_some hf
      simp only [] at hp
      obtain ⟨l1, l2, heq, hq, hl1⟩ := find?_first_match hf
      exact ⟨hp, l1, l2, heq, hl1⟩

/-- C1 witness: in a registry holding `objA` (own identity ("a","T"),
registered first) and `objB` (declares capability ("a","T"), registered
second), resolving ("a","T") with an empty cache yields `objA`. -/
theorem C1_witness :
    ((AppContextInner.mk [objA, objB] []).get_and_cache_inner ⟨"a", "T"⟩).1 = some objA :=
  (C1_resolution_first_compatible ⟨[], []⟩ ⟨"a", "T"⟩ rfl).2.2 objA objB rfl rfl

/-- C3 counterexample: the registry [objA] contains an object compatible
with the requested identity ("a","T"), yet the request ("b","T"), which
differs from it only in the name, resolves to nothing instead of the
same first compatible match — the name IS filtered on during the scan. -/
theorem C3_counterexample :
    ((AppContextInner.mk [objA] []).get_and_cache_inner ⟨"a", "T"⟩).1 = some objA ∧
    ((AppContextInner.mk [objA] []).get_and_cache_inner ⟨"b", "T"⟩).1 = none := by
  constructor <;> rfl

/-- C3 amended: the resolution scan matches the full requested identity,
name included: with an empty cache, a second request R2 that differs
from R only in the requested name resolves to the first object whose
metadata is compatible with R2 itself (own identity equal to R2, or R2
in the capability list), which need not be the first match for R and may
be nothing. -/
theorem C3_amended_name_filtered (objects : List AppObject) (R R2 : BaseInfo)
    (h : R2.type_name = R.type_name) :
    ((AppContextInner.mk objects []).get_and_cache_inner R2).1 =
      objects.find? (fun s => s.meta.compat_with R2) ∧
    (∀ m : ObjectMeta,
      m.compat_with R2 = (m.type_info == R2 || m.can_cast_to.contains R2)) := by
  refine ⟨?_, fun m => compat_with_eq m R2⟩
  have hmiss : cacheFind (AppContextInner.mk objects []).object_cache R2.type_name R2.name
      = none := rfl
  cases hf : objects.find? (fun s => s.meta.compat_with R2) with
  | none => rw [get_and_cache_miss_none hmiss hf]
  | some obj => rw [get_and_cache_miss_found hmiss hf]

/-- C3 amendment witness at the counterexample input: the renamed
request ("b","T") is resolved by scanning for ("b","T") itself. -/
theorem C3_witness :
    ((AppContextInner.mk [objA] []).get_and_cache_inner ⟨"b", "T"⟩).1 =
      [objA].find? (fun s => s.meta.compat_with ⟨"b", "T"⟩) :=
  (C3_amended_name_filtered [objA] ⟨"a", "T"⟩ ⟨"b", "T"⟩ rfl).1

/-- C8: resolution is idempotent: resolving the same identity twice in a
row, with no intervening registration, returns the same (possibly empty)
reference both times. -/
theorem C8_resolution_idempotent (st : AppContextInner) (R : BaseInfo) :
    (((st.get_and_cache_inner R).2).get_and_cache_inner R).1 =
      (st.get_and_cache_inner R).1 := by
  cases hc : cacheFind st.object_cache R.type_name R.name with
  | some o =>
    rw [get_and_cache_hit hc]
    show (st.get_and_cache_inner R).1 = some o
    rw [get_and_cache_hit hc]
  | none =>
    cases hf : st.objects.find? (fun s => s.meta.compat_with R) with
    | none =>
      rw [get_and_cache_miss_none hc hf]
      show (st.get_and_cache_inner R).1 = none
      rw [get_and_cache_miss_none hc hf]
    | some obj =>
      rw [get_and_cache_miss_found hc hf]
      show (AppContextInner.get_and_cache_inner
        { st with object_cache := cacheInsert st.object_cache R.type_name R.name obj } R).1
        = some obj
      rw [get_and_cache_hit (cacheFind_cacheInsert_self hc)]

/-- C2: in every reachable registry state, each cache entry under key
(type tag, name) is exactly the object an uncached linear scan over
`objects` with that requested identity finds first, and an entry, once
present, survives any further registration or resolution unchanged. -/
theorem C2_cache_coherency (st : AppContextInner) (hreach : Reachable st) :
    (∀ ty nm o, cacheFind st.object_cache ty nm = some o →
      st.objects.find? (fun s => s.meta.compat_with ⟨nm, ty⟩) = some o) ∧
    (∀ ty nm o, cacheFind st.object_cache ty nm = some o →
      (∀ obj, cacheFind (st.register_dyn obj).object_cache ty nm = some o) ∧
      (∀ e, cacheFind ((st.get_and_cache_inner e).2).object_cache ty nm = some o)) := by
  refine ⟨reachable_cacheCoherent hreach, ?_⟩
  intro ty nm o h
  exact ⟨fun obj => h, fun e => cache_entry_preserved_resolve h e⟩

/-- C2 witness: after registering `objA` into the empty registry and
resolving ("a","T") once, the cache holds an entry for ("T","a") and the
invariant instantiates to: the scan finds `objA`. -/
theorem C2_witness :
    ((((AppContextInner.mk [] []).register_dyn objA).get_and_cache_inner
        ⟨"a", "T"⟩).2).objects.find? (fun s => s.meta.compat_with ⟨"a", "T"⟩)
      = some objA :=
  (C2_cache_coherency _
      (Reachable.resolve ((AppContextInner.mk [] []).register_dyn objA) ⟨"a", "T"⟩
        (Reachable.reg (AppContextInner.mk [] []) objA Reachable.init))).1
    "T" "a" objA rfl

/-- C4: once the registry and hence all strong references to its objects
are gone, an eager handle's try_downcast fails with `AppContextDropped`
(the weak pointer's strong count is zero), and a lazy handle that was
never forced fails with `ObjectNotFound` carrying the requested
identity (the weak registry pointer dereferences to nothing). -/
theorem C4_dropped_registry (w : WeakRef AppObject) (bi : BaseInfo) (tyT : String)
    (l : LazyAppObjectRef) (n : Nat)
    (hw : w.strong_count = 0) (hl : l.memo = none) :
    (AppObjectRef.new w bi).try_downcast tyT = .error .AppContextDropped ∧
    (l.try_downcast none n tyT).1 =
      .error (.ObjectNotFound l.base_info.name l.base_info.type_name) := by
  constructor
  · unfold AppObjectRef.try_downcast cast_ref AppObjectRef.new weak_to_ref
    simp [hw]
  · unfold LazyAppObjectRef.try_downcast LazyAppObjectRef.force
    rw [hl]

/-- C4 witness: a concrete dead eager handle and a concrete unforced
lazy handle over a dropped registry produce the two claimed errors. -/
theorem C4_witness :
    (AppObjectRef.new ⟨0, objA⟩ ⟨"a", "T"⟩).try_downcast "T"
        = .error .AppContextDropped ∧
    ((LazyAppObjectRef.mk none ⟨"a", "T"⟩).try_downcast none 0 "T").1
        = .error (.ObjectNotFound "a" "T") :=
  C4_dropped_registry ⟨0, objA⟩ ⟨"a", "T"⟩ "T" ⟨none, ⟨"a", "T"⟩⟩ 0 rfl rfl

/-- C5 evaluated at the failing input: `objMismatch` has declared name
"obj" and actual type "ObjType", but was resolved for the requested
identity ("cap", "CapType"); when its inconsistent cast table makes the
downcast step fail, the `UnsupportedCast` error carries the REQUESTED
name "cap" and REQUESTED type tag "CapType" (taken from `base_info`, the
identity the handle was resolved against) rather than the object's
declared name and actual type. -/
theorem C5_unsupported_cast_fields :
    (AppObjectRef.new ⟨1, objMismatch⟩ ⟨"cap", "CapType"⟩).try_downcast "CapType"
        = .error (.UnsupportedCast "cap" "CapType" "CapType") ∧
    objMismatch.meta.type_info = ⟨"obj", "ObjType"⟩ := by
  constructor <;> rfl

/-- C7: a lazy handle performs no resolution at construction
(`lazy_new` returns an unforced cell), the first force runs the
resolution `get_and_cache_inner` exactly once and memoizes its outcome,
and forcing an already-memoized handle returns the memo and touches
neither the handle nor the registry, whatever the registry now contains
— so repeated try_downcast calls reuse one resolution result. -/
theorem C7_lazy_memoization (bi : BaseInfo) (now now2 : Option AppContextInner)
    (v : Option AppObject) :
    LazyAppObjectRef.lazy_new bi = .ok ⟨none, bi⟩ ∧
    ((LazyAppObjectRef.mk none bi).force now).1
      = now.bind (fun st => (st.get_and_cache_inner bi).1) ∧
    ((LazyAppObjectRef.mk none bi).force now).2.1
      = ⟨some (((LazyAppObjectRef.mk none bi).force now).1), bi⟩ ∧
    (LazyAppObjectRef.mk (some v) bi).force now2 = (v, ⟨some v, bi⟩, now2) := by
  refine ⟨rfl, ?_, ?_, rfl⟩
  · cases now <;> rfl
  · cases now <;> rfl

/-- C9: in a reachable state in which no registered object is compatible
with the requested identity, resolution returns nothing and the whole
registry state — in particular the lookup cache — is unchanged, so a
later resolution with the same key performs a fresh scan. -/
theorem C9_miss_no_negative_caching (st : AppContextInner) (R : BaseInfo)
    (hreach : Reachable st)
    (hnone : ∀ o ∈ st.objects, o.meta.compat_with R = false) :
    st.get_and_cache_inner R = (none, st) := by
  have hf : st.objects.find? (fun s => s.meta.compat_with R) = none := by
    rw [List.find?_eq_none]
    intro x hx
    simp [hnone x hx]
  have hmiss : cacheFind st.object_cache R.type_name R.name = none := by
    cases hc : cacheFind st.object_cache R.type_name R.name with
    | none => rfl
    | some o =>
      have hco := reachable_cacheCoherent hreach R.type_name R.name o hc
      have hRe : (⟨R.name, R.type_name⟩ : BaseInfo) = R := rfl
      rw [hRe, hf] at hco
      exact absurd hco (by simp)
  exact get_and_cache_miss_none hmiss hf

/-- C9 witness: resolving ("x","X") against the reachable registry that
holds only `objA` returns nothing and leaves the state untouched. -/
theorem C9_witness :
    ((AppContextInner.mk [] []).register_dyn objA).get_and_cache_inner ⟨"x", "X"⟩
      = (none, (AppContextInner.mk [] []).register_dyn objA) :=
  C9_miss_no_negative_caching ((AppContextInner.mk [] []).register_dyn objA)
    ⟨"x", "X"⟩ (Reachable.reg (AppContextInner.mk [] []) objA Reachable.init)
    (by intro o ho
        simp only [AppContextInner.register_dyn, List.nil_append,
          List.mem_singleton] at ho
        subst ho
        rfl)

/-- C10: `get_lazy_obj` succeeds unconditionally for every requested
identity: `lazy_new` always returns `Ok`, so the `unwrap` inside
`get_lazy_obj` (modelled by `Option`, where `none` stands for a panic)
always yields a handle. -/
theorem C10_get_lazy_obj_total (bi : BaseInfo) :
    get_lazy_obj bi = some ⟨none, bi⟩ ∧
    LazyAppObjectRef.lazy_new bi = .ok ⟨none, bi⟩ :=
  ⟨rfl, rfl⟩

end AppCtx
